import Mathlib

/-!
Verification of the incremental in-memory state calculator
(`execution/executor/src/components/in_memory_state_calculator.rs`).

The calculator itself is embedded directly from the source.  Its collaborators
(the scratchpad sparse Merkle tree, `process_write_set`, `gen_updates`,
`InMemoryState` from `storage_interface`, and the on-chain-config readers) are
not part of the inspected sources; they are modelled from the specification,
with each such definition carrying a doc comment starting with
`Modelled from the spec:`.

State keys, state values, node hashes and versions are represented as natural
numbers.  Finite maps (the flat read cache, per-transaction deltas, and the
content of a sparse-Merkle-tree snapshot) are represented as association lists
kept in a canonical strictly-key-sorted form by `minsert`, so that two maps
with the same content are equal as Lean values and a root hash can be computed
as a plain function of the canonical representation.
-/

namespace Aptos

abbrev StateKey := Nat
abbrev StateValue := Nat
abbrev Version := Nat
abbrev HashValue := Nat

/-- Finite map from `Nat` to `Nat`, canonical when strictly sorted by key. -/
abbrev Smap := List (Nat × Nat)

/-- First-match lookup in an association list. -/
def mget (m : Smap) (k : Nat) : Option Nat :=
  match m with
  | [] => none
  | (k', v) :: rest => if k = k' then some v else mget rest k

/-- Insertion keeping the list strictly sorted by key (overwrites on equality). -/
def minsert (m : Smap) (k v : Nat) : Smap :=
  match m with
  | [] => [(k, v)]
  | (k', v') :: rest =>
    if k < k' then (k, v) :: (k', v') :: rest
    else if k = k' then (k, v) :: rest
    else (k', v') :: minsert rest k v

/-- Strict key-sortedness: the canonical-form invariant of `Smap`. -/
abbrev MSorted (m : Smap) : Prop :=
  List.Pairwise (fun p q => p.1 < q.1) m

/-- Option fallback: the left value if present, otherwise the right one. -/
def oor (a b : Option Nat) : Option Nat :=
  match a with
  | some v => some v
  | none => b

theorem oor_some (v : Nat) (b : Option Nat) : oor (some v) b = some v := rfl

theorem oor_none (b : Option Nat) : oor none b = b := rfl

theorem mget_minsert (m : Smap) (k v k' : Nat) :
    mget (minsert m k v) k' = if k' = k then some v else mget m k' := by
  induction m with
  | nil => simp [minsert, mget]
  | cons p rest ih =>
    obtain ⟨k0, v0⟩ := p
    by_cases hlt : k < k0
    · simp only [minsert, if_pos hlt, mget]
    · by_cases heq : k = k0
      · subst heq
        simp only [minsert, if_neg hlt, if_pos rfl, mget]
        by_cases h1 : k' = k
        · simp [h1]
        · simp [h1]
      · simp only [minsert, if_neg hlt, if_neg heq, mget]
        by_cases h1 : k' = k0
        · subst h1
          have h2 : ¬ (k' = k) := fun h => heq (h ▸ rfl)
          simp [h2]
        · simp [h1, ih]

theorem mem_minsert (m : Smap) (k v : Nat) (q : Nat × Nat)
    (hq : q ∈ minsert m k v) : q ∈ m ∨ q = (k, v) := by
  induction m with
  | nil =>
    simp only [minsert, List.mem_singleton] at hq
    right; exact hq
  | cons p rest ih =>
    simp only [minsert] at hq
    by_cases h1 : k < p.1
    · rw [if_pos h1, List.mem_cons] at hq
      rcases hq with hq | hq
      · right; exact hq
      · left; exact hq
    · rw [if_neg h1] at hq
      by_cases h2 : k = p.1
      · rw [if_pos h2, List.mem_cons] at hq
        rcases hq with hq | hq
        · right; exact hq
        · left; exact List.mem_cons_of_mem _ hq
      · rw [if_neg h2, List.mem_cons] at hq
        rcases hq with hq | hq
        · left; rw [hq]; exact List.mem_cons_self _ _
        · rcases ih hq with h | h
          · left; exact List.mem_cons_of_mem _ h
          · right; exact h

theorem msorted_minsert (m : Smap) (k v : Nat) (h : MSorted m) :
    MSorted (minsert m k v) := by
  induction m with
  | nil => simp [minsert]
  | cons p rest ih =>
    obtain ⟨k0, v0⟩ := p
    obtain ⟨hall, hrest⟩ := List.pairwise_cons.mp h
    by_cases hlt : k < k0
    · simp only [minsert, if_pos hlt]
      refine List.pairwise_cons.mpr ⟨?_, ?_⟩
      · intro q hq
        rw [List.mem_cons] at hq
        rcases hq with hq | hq
        · simp [hq, hlt]
        · exact lt_trans hlt (hall q hq)
      · exact List.pairwise_cons.mpr ⟨hall, hrest⟩
    · by_cases heq : k = k0
      · subst heq
        simp only [minsert, if_neg hlt, if_pos rfl]
        exact List.pairwise_cons.mpr ⟨hall, hrest⟩
      · simp only [minsert, if_neg hlt, if_neg heq]
        refine List.pairwise_cons.mpr ⟨?_, ih hrest⟩
        intro q hq
        rcases mem_minsert rest k v q hq with h | h
        · exact hall q h
        · rw [h]; simpa using by omega

theorem mget_eq_none_of_ne (m : Smap) (k : Nat) (h : ∀ p ∈ m, k ≠ p.1) :
    mget m k = none := by
  induction m with
  | nil => rfl
  | cons p rest ih =>
    have hne : k ≠ p.1 := h p (List.mem_cons_self _ _)
    obtain ⟨k0, v0⟩ := p
    simp only [mget]
    rw [if_neg hne]
    exact ih (fun q hq => h q (List.mem_cons_of_mem _ hq))

theorem mget_mem (m : Smap) (k v : Nat) (h : mget m k = some v) : (k, v) ∈ m := by
  induction m with
  | nil => simp [mget] at h
  | cons p rest ih =>
    obtain ⟨k0, v0⟩ := p
    simp only [mget] at h
    by_cases h1 : k = k0
    · rw [if_pos h1] at h
      obtain ⟨rfl⟩ := h
      rw [h1]
      exact List.mem_cons_self _ _
    · rw [if_neg h1] at h
      exact List.mem_cons_of_mem _ (ih h)

theorem msorted_tail_get (k0 v0 : Nat) (t : Smap) (h : MSorted ((k0, v0) :: t)) :
    mget t k0 = none := by
  have h1 := List.pairwise_cons.mp h
  exact mget_eq_none_of_ne t k0 (fun q hq => Nat.ne_of_lt (h1.1 q hq))

theorem mext (a : Smap) (b : Smap) (ha : MSorted a) (hb : MSorted b)
    (h : ∀ k, mget a k = mget b k) : a = b := by
  induction a generalizing b with
  | nil =>
    cases b with
    | nil => rfl
    | cons q t =>
      have hc := h q.1
      obtain ⟨kb, vb⟩ := q
      simp [mget] at hc
  | cons p ta ih =>
    cases b with
    | nil =>
      have hc := h p.1
      obtain ⟨ka, va⟩ := p
      simp [mget] at hc
    | cons q tb =>
      obtain ⟨ka, va⟩ := p
      obtain ⟨kb, vb⟩ := q
      have hga : mget ((ka, va) :: ta) ka = some va := by simp [mget]
      have hgb : mget ((kb, vb) :: tb) kb = some vb := by simp [mget]
      have hkeq : ka = kb := by
        by_contra hne
        have h1 : mget ((kb, vb) :: tb) ka = some va := (h ka) ▸ hga
        simp only [mget, if_neg hne] at h1
        have hmem1 : (ka, va) ∈ tb := mget_mem _ _ _ h1
        have hlt1 : kb < ka := (List.pairwise_cons.mp hb).1 (ka, va) hmem1
        have h2 : mget ((ka, va) :: ta) kb = some vb := (h kb).trans hgb
        have hne' : ¬ (kb = ka) := fun hh => hne (hh ▸ rfl)
        simp only [mget, if_neg hne'] at h2
        have hmem2 : (kb, vb) ∈ ta := mget_mem _ _ _ h2
        have hlt2 : ka < kb := (List.pairwise_cons.mp ha).1 (kb, vb) hmem2
        omega
      subst hkeq
      have hveq : va = vb := by
        have hc := (h ka).symm.trans hga
        rw [hgb] at hc
        exact (Option.some.inj hc).symm
      subst hveq
      have hta : MSorted ta := (List.pairwise_cons.mp ha).2
      have htb : MSorted tb := (List.pairwise_cons.mp hb).2
      have htails : ∀ k, mget ta k = mget tb k := by
        intro k
        by_cases hk : k = ka
        · subst hk
          rw [msorted_tail_get _ _ _ ha, msorted_tail_get _ _ _ hb]
        · have hc := h k
          simp only [mget, if_neg hk] at hc
          exact hc
      rw [ih tb hta htb htails]

/-- Modelled from the spec: keys are hashed by a fixed cryptographic hash to
locate tree positions; the hash is idealized as an injective placement, taken
to be the identity on the key space. -/
def key_hash (k : StateKey) : HashValue := k

/-- Modelled from the spec: batch update of a snapshot — fold every (hashed
key, value) pair of the update list into the base snapshot, producing a new
independent snapshot.  Proof-assisted insertion is idealized: all data is
resident and every proof supplied by the caller is valid, so the update is
total.  The same fold also serves as plain map extension (`HashMap::extend`)
for the flat read cache and the emitted deltas. -/
def batch_update (m : Smap) (u : Smap) : Smap :=
  u.foldl (fun acc kv => minsert acc kv.1 kv.2) m

/-- Modelled from the spec: the root hash of a snapshot is a function of the
snapshot's content alone (an injective fold over the canonical form). -/
def root_hash (m : Smap) : HashValue :=
  m.foldr (fun kv acc => Nat.pair (Nat.pair kv.1 kv.2) acc + 1) 0

/-- Modelled from the spec: the delta of newly created node hashes of a
snapshot versus a caller-specified reference snapshot — the entries that are
new or changed relative to the reference. -/
def new_node_hashes_since (cur ref : Smap) : Smap :=
  cur.filter (fun kv => decide (¬ (mget ref kv.1 = some kv.2)))

/-- Modelled from the spec: result of a point lookup on a snapshot — value
found in the in-memory overlay, not found, or needs-proof.  The idealized
fully-resident tree never answers needs-proof. -/
inductive StateStoreStatus where
  | ExistsInScratchPad (value : StateValue)
  | DoesNotExist
  | Unknown
deriving DecidableEq

/-- Modelled from the spec: point lookup on a snapshot. -/
def smt_get (m : Smap) (h : HashValue) : StateStoreStatus :=
  match mget m h with
  | some v => StateStoreStatus.ExistsInScratchPad v
  | none => StateStoreStatus.DoesNotExist

/-- Re-key an update map by `key_hash`, as done before every `batch_update`. -/
def hash_keyed (m : Smap) : Smap :=
  m.map (fun kv => (key_hash kv.1, kv.2))

theorem hash_keyed_eq (m : Smap) : hash_keyed m = m := by
  induction m with
  | nil => rfl
  | cons p rest ih =>
    obtain ⟨k, v⟩ := p
    simp only [hash_keyed, List.map_cons] at ih ⊢
    rw [ih]
    rfl

theorem batch_update_nil (m : Smap) : batch_update m [] = m := rfl

theorem batch_update_cons (m : Smap) (k v : Nat) (u : Smap) :
    batch_update m ((k, v) :: u) = batch_update (minsert m k v) u := rfl

theorem batch_update_append (m : Smap) (a b : Smap) :
    batch_update m (a ++ b) = batch_update (batch_update m a) b := by
  simp [batch_update, List.foldl_append]

theorem msorted_batch_update (m : Smap) (u : Smap) (h : MSorted m) :
    MSorted (batch_update m u) := by
  induction u generalizing m with
  | nil => exact h
  | cons p rest ih =>
    obtain ⟨k, v⟩ := p
    rw [batch_update_cons]
    exact ih _ (msorted_minsert m k v h)

theorem oor_none_right (a : Option Nat) : oor a none = a := by
  cases a with
  | none => rfl
  | some v => rfl

theorem mget_batch_update_raw (m : Smap) (ws : Smap) (k : Nat) :
    mget (batch_update m ws) k = oor (mget (batch_update [] ws) k) (mget m k) := by
  induction ws generalizing m with
  | nil => simp [batch_update_nil, mget, oor]
  | cons p rest ih =>
    obtain ⟨k0, v0⟩ := p
    rw [batch_update_cons, batch_update_cons, ih (minsert m k0 v0),
        ih (minsert [] k0 v0)]
    cases hc : mget (batch_update [] rest) k with
    | some v => rw [oor_some, oor_some, oor_some]
    | none =>
      rw [oor_none, oor_none, mget_minsert, mget_minsert]
      by_cases h1 : k = k0
      · rw [if_pos h1, if_pos h1, oor_some]
      · rw [if_neg h1, if_neg h1]
        simp [mget, oor_none]

/-- The canonical map of a raw write list: later writes overwrite earlier. -/
def canon (ws : Smap) : Smap := batch_update [] ws

theorem msorted_canon (ws : Smap) : MSorted (canon ws) :=
  msorted_batch_update [] ws List.Pairwise.nil

theorem mget_batch_update (m : Smap) (ws : Smap) (k : Nat) :
    mget (batch_update m ws) k = oor (mget (canon ws) k) (mget m k) :=
  mget_batch_update_raw m ws k

theorem canon_sorted (u : Smap) (h : MSorted u) : canon u = u := by
  induction u with
  | nil => rfl
  | cons p rest ih =>
    obtain ⟨k0, v0⟩ := p
    have hrest : MSorted rest := (List.pairwise_cons.mp h).2
    have ih2 : batch_update [] rest = rest := ih hrest
    refine mext _ _ (msorted_canon _) h ?_
    intro k
    rw [canon, batch_update_cons, mget_batch_update_raw, ih2, mget_minsert]
    by_cases h1 : k = k0
    · subst h1
      rw [msorted_tail_get _ v0 _ h, oor_none, if_pos rfl]
      simp [mget]
    · rw [if_neg h1]
      simp [mget, if_neg h1, oor_none_right]

theorem mem_keys_canon (ws : Smap) (k : Nat) :
    k ∈ ws.map Prod.fst ↔ ∃ v, mget (canon ws) k = some v := by
  induction ws with
  | nil => simp [canon, batch_update_nil, mget]
  | cons p rest ih =>
    obtain ⟨k0, v0⟩ := p
    rw [canon, batch_update_cons, List.map_cons]
    constructor
    · intro h
      rw [List.mem_cons] at h
      rw [mget_batch_update_raw]
      cases hc : mget (batch_update [] rest) k with
      | some v => exact ⟨v, by rw [oor_some]⟩
      | none =>
        rcases h with h | h
        · refine ⟨v0, ?_⟩
          rw [oor_none, mget_minsert, if_pos h]
        · obtain ⟨v, hv⟩ := ih.mp h
          rw [show canon rest = batch_update [] rest from rfl, hc] at hv
          exact absurd hv (by simp)
    · intro h
      obtain ⟨v, hv⟩ := h
      rw [mget_batch_update_raw] at hv
      cases hc : mget (batch_update [] rest) k with
      | some v' =>
        exact List.mem_cons_of_mem _ (ih.mpr ⟨v', hc⟩)
      | none =>
        rw [hc, oor_none, mget_minsert] at hv
        by_cases h1 : k = k0
        · exact List.mem_cons.mpr (Or.inl h1)
        · rw [if_neg h1] at hv
          simp [mget] at hv

def errMissingValue : String := "State value should exist."

def errPendingMissing : String := "Pending state after checkpoint missing."

def errValidatorSet : String := "ValidatorSet not touched on epoch change"

def errConfiguration : String := "Configuration resource not touched on epoch change"

/-- Modelled from the spec: `gen_updates` from `storage_interface` — collect
every given key together with its current value from the flat read cache,
failing when any key has no cached value.  The same lookup-and-collect is the
body of `InMemoryStateCalculator::updates_after_latest`, whose rayon fan-out
is order-insensitive (proved below), so a single left-to-right fold models it. -/
def gen_updates (cache : Smap) (ks : List StateKey) : Except String Smap :=
  match ks with
  | [] => Except.ok []
  | k :: rest =>
    match mget cache k with
    | none => Except.error errMissingValue
    | some v =>
      match gen_updates cache rest with
      | Except.error e => Except.error e
      | Except.ok m => Except.ok (minsert m k v)

/-- Modelled from the spec: `process_write_set` from `storage_interface` —
apply the transaction's write-set onto the flat read cache and record exactly
which keys were written. -/
def process_write_set (cache : Smap) (ws : List (StateKey × StateValue)) :
    Smap × List StateKey :=
  (batch_update cache ws, ws.map Prod.fst)

/-- Modelled from the spec: the well-known on-chain-config address holds a
validator-set resource and a configuration resource, read through the flat
state cache; the two resources are modelled as two distinct reserved keys. -/
def validator_set_key : StateKey := 0

/-- Modelled from the spec: the configuration resource's key (see
`validator_set_key`). -/
def configuration_key : StateKey := 1

/-- Modelled from the spec: epoch number plus a validator-set verifier. -/
structure EpochState where
  epoch : Nat
  verifier : Nat
deriving DecidableEq

/-- Epoch extractor (`parse_validator_set`): reads the validator-set and
configuration resources from the final flat cache; absence of either is a
fatal error. -/
def parse_validator_set (state_cache : Smap) : Except String EpochState :=
  match mget state_cache validator_set_key with
  | none => Except.error errValidatorSet
  | some vs =>
    match mget state_cache configuration_key with
    | none => Except.error errConfiguration
    | some cfg => Except.ok ⟨cfg, vs⟩

/-- Rust `u64::checked_sub`. -/
def checked_sub (n k : Nat) : Option Nat :=
  if k ≤ n then some (n - k) else none

/-- Transaction kinds distinguished by `add_transaction` (the source enum's
payloads are irrelevant to state-delta computation and omitted). -/
inductive Transaction where
  | UserTransaction
  | BlockMetadata
  | GenesisTransaction
  | StateCheckpoint
deriving DecidableEq

/-- Parsed transaction output: the write-set and the reconfiguration flag. -/
structure ParsedTransactionOutput where
  write_set : List (StateKey × StateValue)
  is_reconfig : Bool

/-- Modelled from the spec: `InMemoryState` from `storage_interface` — the
Result State persisted across chunks: checkpoint snapshot, checkpoint
version, latest (current) snapshot, and the keys modified since the
checkpoint. -/
structure InMemoryState where
  checkpoint : Smap
  checkpoint_version : Option Version
  current : Smap
  updated_since_checkpoint : List StateKey

/-- The calculator's working state.  The frozen base and the proof reader of
the source carry no information in the idealized tree model (snapshots are
plain values and all proofs are valid) and are omitted; frozen and unfrozen
snapshots coincide as content. -/
structure InMemoryStateCalculator where
  state_cache : Smap
  checkpoint : Smap
  checkpoint_version : Option Version
  latest : Smap
  next_version : Version
  updated_between_checkpoint_and_latest : List StateKey
  updated_after_latest : List StateKey

/-- `InMemoryStateCalculator::new`: seed the working state from the previous
Result State, the caller-preloaded read cache, and the first version. -/
def new (base : InMemoryState) (state_cache : Smap) (next_version : Version) :
    InMemoryStateCalculator :=
  ⟨state_cache, base.checkpoint, base.checkpoint_version, base.current,
   next_version, base.updated_since_checkpoint, []⟩

/-- `InMemoryStateCalculator::updates_after_latest`. -/
def updates_after_latest (c : InMemoryStateCalculator) : Except String Smap :=
  gen_updates c.state_cache c.updated_after_latest

/-- The straddling-key reconstruction inside `checkpoint`: for each key
modified between the last checkpoint and `latest` but not after `latest`,
read its value by point lookup on the (pre-update) `latest` snapshot; any
status other than found-in-scratch-pad is fatal. -/
def straddling_values (latest : Smap) (ks : List StateKey) : Except String Smap :=
  match ks with
  | [] => Except.ok []
  | k :: rest =>
    match smt_get latest (key_hash k) with
    | StateStoreStatus.ExistsInScratchPad v =>
      match straddling_values latest rest with
      | Except.error e => Except.error e
      | Except.ok m => Except.ok (minsert m k v)
    | _ => Except.error errPendingMissing

/-- `InMemoryStateCalculator::checkpoint`: fold the pending updates into the
tree, emit the combined delta, the new node hashes since the last checkpoint
and the new root hash, and advance the working state. -/
def checkpoint (c : InMemoryStateCalculator) :
    Except String (InMemoryStateCalculator × Smap × Smap × Option HashValue) :=
  match updates_after_latest c with
  | Except.error e => Except.error e
  | Except.ok updatesAfterLatest =>
    let smt_updates := hash_keyed updatesAfterLatest
    let new_checkpoint := batch_update c.latest smt_updates
    let new_node_hashes := new_node_hashes_since new_checkpoint c.checkpoint
    let root := root_hash new_checkpoint
    let straddlers := c.updated_between_checkpoint_and_latest.filter
        (fun k => decide (¬ k ∈ c.updated_after_latest))
    match straddling_values c.latest straddlers with
    | Except.error e => Except.error e
    | Except.ok betweenVals =>
      let state_updates := batch_update updatesAfterLatest betweenVals
      Except.ok
        (⟨c.state_cache, new_checkpoint, checked_sub c.next_version 1,
          new_checkpoint, c.next_version, [], []⟩,
         state_updates, new_node_hashes, some root)

/-- `InMemoryStateCalculator::add_transaction`: apply the write-set onto the
flat cache, record the written keys, bump the version, then decide whether
this transaction forces a checkpoint. -/
def add_transaction (c : InMemoryStateCalculator) (txn : Transaction)
    (txn_output : ParsedTransactionOutput) :
    Except String (InMemoryStateCalculator × Smap × Smap × Option HashValue) :=
  let p := process_write_set c.state_cache txn_output.write_set
  let c2 : InMemoryStateCalculator :=
    ⟨p.1, c.checkpoint, c.checkpoint_version, c.latest, c.next_version + 1,
     c.updated_between_checkpoint_and_latest, c.updated_after_latest ++ p.2⟩
  if txn_output.is_reconfig then checkpoint c2
  else
    match txn with
    | Transaction.BlockMetadata | Transaction.UserTransaction =>
      Except.ok (c2, [], [], none)
    | Transaction.GenesisTransaction | Transaction.StateCheckpoint =>
      checkpoint c2

/-- `InMemoryStateCalculator::finish`: fold any trailing updates into the
tree (no per-transaction delta is emitted) and assemble the Result State. -/
def finish (c : InMemoryStateCalculator) : Except String (InMemoryState × Smap) :=
  match gen_updates c.state_cache c.updated_after_latest with
  | Except.error e => Except.error e
  | Except.ok updatesAfterLatest =>
    let latest := batch_update c.latest (hash_keyed updatesAfterLatest)
    let updated_since_checkpoint :=
      c.updated_between_checkpoint_and_latest ++ updatesAfterLatest.map Prod.fst
    Except.ok (⟨c.checkpoint, c.checkpoint_version, latest,
               updated_since_checkpoint⟩, c.state_cache)

/-- The transaction loop of `calculate_for_transaction_chunk`, collecting the
three aligned per-transaction output sequences. -/
def run_transactions (c : InMemoryStateCalculator)
    (to_keep : List (Transaction × ParsedTransactionOutput)) :
    Except String
      (InMemoryStateCalculator × List Smap × List Smap × List (Option HashValue)) :=
  match to_keep with
  | [] => Except.ok (c, [], [], [])
  | (txn, txn_output) :: rest =>
    match add_transaction c txn txn_output with
    | Except.error e => Except.error e
    | Except.ok (c2, su, nh, rh) =>
      match run_transactions c2 rest with
      | Except.error e => Except.error e
      | Except.ok (c3, sus, nhs, rhs) =>
        Except.ok (c3, su :: sus, nh :: nhs, rh :: rhs)

/-- `InMemoryStateCalculator::calculate_for_transaction_chunk`: run every
transaction in order, run `finish`, and (only when the caller declares a new
epoch) extract the EpochState from the final flat cache. -/
def calculate_for_transaction_chunk (c : InMemoryStateCalculator)
    (to_keep : List (Transaction × ParsedTransactionOutput)) (new_epoch : Bool) :
    Except String
      (List Smap × List Smap × List (Option HashValue) × InMemoryState ×
       Option EpochState) :=
  match run_transactions c to_keep with
  | Except.error e => Except.error e
  | Except.ok (c2, sus, nhs, rhs) =>
    match finish c2 with
    | Except.error e => Except.error e
    | Except.ok (result_state, accounts) =>
      if new_epoch then
        match parse_validator_set accounts with
        | Except.error e => Except.error e
        | Except.ok es => Except.ok (sus, nhs, rhs, result_state, some es)
      else Except.ok (sus, nhs, rhs, result_state, none)

theorem gen_updates_sorted (cache : Smap) (ks : List StateKey) (m : Smap)
    (h : gen_updates cache ks = Except.ok m) : MSorted m := by
  induction ks generalizing m with
  | nil =>
    simp only [gen_updates] at h
    obtain ⟨rfl⟩ := h
    exact List.Pairwise.nil
  | cons k rest ih =>
    simp only [gen_updates] at h
    cases hc : mget cache k with
    | none => rw [hc] at h; exact absurd h (by simp)
    | some v =>
      rw [hc] at h
      cases hr : gen_updates cache rest with
      | error e => rw [hr] at h; exact absurd h (by simp)
      | ok m0 =>
        rw [hr] at h
        obtain ⟨rfl⟩ := h
        exact msorted_minsert m0 k v (ih m0 hr)

theorem gen_updates_get (cache : Smap) (ks : List StateKey) (m : Smap)
    (h : gen_updates cache ks = Except.ok m) (k : Nat) :
    mget m k = if k ∈ ks then mget cache k else none := by
  induction ks generalizing m with
  | nil =>
    simp only [gen_updates] at h
    obtain ⟨rfl⟩ := h
    simp [mget]
  | cons k0 rest ih =>
    simp only [gen_updates] at h
    cases hc : mget cache k0 with
    | none => rw [hc] at h; exact absurd h (by simp)
    | some v =>
      rw [hc] at h
      cases hr : gen_updates cache rest with
      | error e => rw [hr] at h; exact absurd h (by simp)
      | ok m0 =>
        rw [hr] at h
        obtain ⟨rfl⟩ := h
        rw [mget_minsert]
        by_cases h1 : k = k0
        · subst h1
          simp [hc]
        · rw [if_neg h1, ih m0 hr]
          simp [List.mem_cons, h1]

theorem gen_updates_mem_isSome (cache : Smap) (ks : List StateKey) (m : Smap)
    (h : gen_updates cache ks = Except.ok m) (k : Nat) (hk : k ∈ ks) :
    ∃ v, mget cache k = some v := by
  induction ks generalizing m with
  | nil => simp at hk
  | cons k0 rest ih =>
    simp only [gen_updates] at h
    cases hc : mget cache k0 with
    | none => rw [hc] at h; exact absurd h (by simp)
    | some v =>
      rw [hc] at h
      cases hr : gen_updates cache rest with
      | error e => rw [hr] at h; exact absurd h (by simp)
      | ok m0 =>
        rw [List.mem_cons] at hk
        rcases hk with hk | hk
        · exact ⟨v, hk ▸ hc⟩
        · exact ih m0 hr hk

theorem gen_updates_error_of_missing (cache : Smap) (ks : List StateKey)
    (k : Nat) (hk : k ∈ ks) (hc : mget cache k = none) :
    gen_updates cache ks = Except.error errMissingValue := by
  induction ks with
  | nil => simp at hk
  | cons k0 rest ih =>
    rw [List.mem_cons] at hk
    simp only [gen_updates]
    by_cases h0 : k = k0
    · rw [h0] at hc
      rw [hc]
    · cases hcc : mget cache k0 with
      | none => rfl
      | some v =>
        have hk' : k ∈ rest := by
          rcases hk with hk | hk
          · exact absurd hk h0
          · exact hk
        rw [ih hk']

theorem gen_updates_ok_of_total (cache : Smap) (ks : List StateKey)
    (h : ∀ k ∈ ks, ∃ v, mget cache k = some v) :
    ∃ m, gen_updates cache ks = Except.ok m := by
  induction ks with
  | nil => exact ⟨[], rfl⟩
  | cons k0 rest ih =>
    obtain ⟨v, hv⟩ := h k0 (List.mem_cons_self _ _)
    obtain ⟨m0, hm0⟩ := ih (fun k hk => h k (List.mem_cons_of_mem _ hk))
    refine ⟨minsert m0 k0 v, ?_⟩
    simp only [gen_updates, hv, hm0]

theorem smt_get_eq (latest : Smap) (k : Nat) (v : Nat) :
    smt_get latest (key_hash k) = StateStoreStatus.ExistsInScratchPad v ↔
      mget latest k = some v := by
  rw [key_hash, smt_get]
  cases hc : mget latest k with
  | none => simp
  | some v' => simp

theorem straddling_values_sorted (latest : Smap) (ks : List StateKey) (m : Smap)
    (h : straddling_values latest ks = Except.ok m) : MSorted m := by
  induction ks generalizing m with
  | nil =>
    simp only [straddling_values] at h
    obtain ⟨rfl⟩ := h
    exact List.Pairwise.nil
  | cons k rest ih =>
    simp only [straddling_values] at h
    cases hc : mget latest (key_hash k) with
    | none => rw [show smt_get latest (key_hash k) = StateStoreStatus.DoesNotExist
                    from by rw [smt_get, hc]] at h
              exact absurd h (by simp)
    | some v =>
      rw [show smt_get latest (key_hash k) = StateStoreStatus.ExistsInScratchPad v
            from by rw [smt_get, hc]] at h
      cases hr : straddling_values latest rest with
      | error e => rw [hr] at h; exact absurd h (by simp)
      | ok m0 =>
        rw [hr] at h
        obtain ⟨rfl⟩ := h
        exact msorted_minsert m0 k v (ih m0 hr)

theorem straddling_values_get (latest : Smap) (ks : List StateKey) (m : Smap)
    (h : straddling_values latest ks = Except.ok m) (k : Nat) :
    mget m k = if k ∈ ks then mget latest (key_hash k) else none := by
  induction ks generalizing m with
  | nil =>
    simp only [straddling_values] at h
    obtain ⟨rfl⟩ := h
    simp [mget]
  | cons k0 rest ih =>
    simp only [straddling_values] at h
    cases hc : mget latest (key_hash k0) with
    | none => rw [show smt_get latest (key_hash k0) = StateStoreStatus.DoesNotExist
                    from by rw [smt_get, hc]] at h
              exact absurd h (by simp)
    | some v =>
      rw [show smt_get latest (key_hash k0) = StateStoreStatus.ExistsInScratchPad v
            from by rw [smt_get, hc]] at h
      cases hr : straddling_values latest rest with
      | error e => rw [hr] at h; exact absurd h (by simp)
      | ok m0 =>
        rw [hr] at h
        obtain ⟨rfl⟩ := h
        rw [mget_minsert]
        by_cases h1 : k = k0
        · subst h1
          simp only [List.mem_cons, true_or, if_pos]
          rw [hc]
        · rw [if_neg h1, ih m0 hr]
          simp [List.mem_cons, h1]

theorem straddling_values_error_of_missing (latest : Smap) (ks : List StateKey)
    (k : Nat) (hk : k ∈ ks) (hc : mget latest (key_hash k) = none) :
    straddling_values latest ks = Except.error errPendingMissing := by
  induction ks with
  | nil => simp at hk
  | cons k0 rest ih =>
    rw [List.mem_cons] at hk
    simp only [straddling_values]
    by_cases h0 : k = k0
    · rw [h0] at hc
      rw [show smt_get latest (key_hash k0) = StateStoreStatus.DoesNotExist
            from by rw [smt_get, hc]]
    · cases hcc : mget latest (key_hash k0) with
      | none =>
        rw [show smt_get latest (key_hash k0) = StateStoreStatus.DoesNotExist
              from by rw [smt_get, hcc]]
      | some v =>
        have hk' : k ∈ rest := by
          rcases hk with hk | hk
          · exact absurd hk h0
          · exact hk
        rw [show smt_get latest (key_hash k0) = StateStoreStatus.ExistsInScratchPad v
              from by rw [smt_get, hcc]]
        rw [ih hk']

theorem straddling_values_ok_of_total (latest : Smap) (ks : List StateKey)
    (h : ∀ k ∈ ks, ∃ v, mget latest (key_hash k) = some v) :
    ∃ m, straddling_values latest ks = Except.ok m := by
  induction ks with
  | nil => exact ⟨[], rfl⟩
  | cons k0 rest ih =>
    obtain ⟨v, hv⟩ := h k0 (List.mem_cons_self _ _)
    obtain ⟨m0, hm0⟩ := ih (fun k hk => h k (List.mem_cons_of_mem _ hk))
    refine ⟨minsert m0 k0 v, ?_⟩
    rw [straddling_values,
        show smt_get latest (key_hash k0) = StateStoreStatus.ExistsInScratchPad v
          from by rw [smt_get, hv], hm0]

theorem checkpoint_ok_elim (c c' : InMemoryStateCalculator) (su nh : Smap)
    (rh : Option HashValue) (h : checkpoint c = Except.ok (c', su, nh, rh)) :
    ∃ u bv, updates_after_latest c = Except.ok u ∧
      straddling_values c.latest
        (c.updated_between_checkpoint_and_latest.filter
          (fun k => decide (¬ k ∈ c.updated_after_latest))) = Except.ok bv ∧
      c' = ⟨c.state_cache, batch_update c.latest (hash_keyed u),
            checked_sub c.next_version 1, batch_update c.latest (hash_keyed u),
            c.next_version, [], []⟩ ∧
      su = batch_update u bv ∧
      nh = new_node_hashes_since (batch_update c.latest (hash_keyed u)) c.checkpoint ∧
      rh = some (root_hash (batch_update c.latest (hash_keyed u))) := by
  rw [checkpoint] at h
  cases hu : updates_after_latest c with
  | error e => rw [hu] at h; exact absurd h (by simp)
  | ok u =>
    rw [hu] at h
    simp only [] at h
    cases hs : straddling_values c.latest
        (c.updated_between_checkpoint_and_latest.filter
          (fun k => decide (¬ k ∈ c.updated_after_latest))) with
    | error e => rw [hs] at h; exact absurd h (by simp)
    | ok bv =>
      rw [hs] at h
      simp only [Except.ok.injEq, Prod.mk.injEq] at h
      obtain ⟨h1, h2, h3, h4⟩ := h
      exact ⟨u, bv, rfl, rfl, h1.symm, h2.symm, h3.symm, h4.symm⟩

theorem checkpoint_error_of_updates (c : InMemoryStateCalculator) (e : String)
    (h : updates_after_latest c = Except.error e) :
    checkpoint c = Except.error e := by
  rw [checkpoint, h]

theorem finish_ok_elim (c : InMemoryStateCalculator) (rs : InMemoryState)
    (acc : Smap) (h : finish c = Except.ok (rs, acc)) :
    ∃ u, gen_updates c.state_cache c.updated_after_latest = Except.ok u ∧
      rs = ⟨c.checkpoint, c.checkpoint_version,
            batch_update c.latest (hash_keyed u),
            c.updated_between_checkpoint_and_latest ++ u.map Prod.fst⟩ ∧
      acc = c.state_cache := by
  rw [finish] at h
  cases hu : gen_updates c.state_cache c.updated_after_latest with
  | error e => rw [hu] at h; exact absurd h (by simp)
  | ok u =>
    rw [hu] at h
    simp only [Except.ok.injEq, Prod.mk.injEq] at h
    obtain ⟨h1, h2⟩ := h
    exact ⟨u, rfl, h1.symm, h2.symm⟩

theorem finish_error_of_updates (c : InMemoryStateCalculator) (e : String)
    (h : gen_updates c.state_cache c.updated_after_latest = Except.error e) :
    finish c = Except.error e := by
  rw [finish, h]

/-- C4: a transaction that is not flagged as a reconfiguration and is an
ordinary user transaction or a block-metadata transaction returns an empty
key/value delta, an empty new-node-hash set and no root hash, while its
written keys are merged into `updated_after_latest` (with the write-set also
applied onto the flat cache) and `next_version` advances by one. -/
theorem c4_non_checkpoint_txns_delta_silent (c : InMemoryStateCalculator)
    (txn : Transaction) (txn_output : ParsedTransactionOutput)
    (hr : txn_output.is_reconfig = false)
    (ht : txn = Transaction.UserTransaction ∨ txn = Transaction.BlockMetadata) :
    add_transaction c txn txn_output =
      Except.ok
        (⟨batch_update c.state_cache txn_output.write_set, c.checkpoint,
          c.checkpoint_version, c.latest, c.next_version + 1,
          c.updated_between_checkpoint_and_latest,
          c.updated_after_latest ++ txn_output.write_set.map Prod.fst⟩,
         [], [], none) := by
  rcases ht with h | h <;> subst h <;>
    simp [add_transaction, hr, process_write_set]

theorem c4_witness :
    (⟨[(3, 4)], true⟩ : ParsedTransactionOutput).is_reconfig = false ∨
      add_transaction ⟨[], [], none, [], 5, [], []⟩ Transaction.UserTransaction
          ⟨[(3, 4)], false⟩ =
        Except.ok (⟨[(3, 4)], [], none, [], 6, [], [3]⟩, [], [], none) :=
  Or.inr
    (c4_non_checkpoint_txns_delta_silent ⟨[], [], none, [], 5, [], []⟩
      Transaction.UserTransaction ⟨[(3, 4)], false⟩ rfl (Or.inl rfl))

/-- C5: immediately after a successful checkpoint both change-tracking sets
are empty, `checkpoint_version` is `next_version - 1` (the version counter is
at least one at every source call site, see C10), `latest` is the newly
produced snapshot and `checkpoint` is its (content-identical) unfrozen form. -/
theorem c5_checkpoint_reset_invariant (c c' : InMemoryStateCalculator)
    (su nh : Smap) (rh : Option HashValue)
    (h : checkpoint c = Except.ok (c', su, nh, rh)) (hv : 1 ≤ c.next_version) :
    c'.updated_after_latest = [] ∧
      c'.updated_between_checkpoint_and_latest = [] ∧
      c'.checkpoint_version = some (c.next_version - 1) ∧
      c'.next_version = c.next_version ∧
      c'.checkpoint = c'.latest ∧
      ∃ u, updates_after_latest c = Except.ok u ∧
        c'.latest = batch_update c.latest (hash_keyed u) := by
  obtain ⟨u, bv, hu, hs, hc', _, _, _⟩ := checkpoint_ok_elim c c' su nh rh h
  subst hc'
  refine ⟨rfl, rfl, ?_, rfl, rfl, u, hu, rfl⟩
  simp only [checked_sub, if_pos hv]

theorem c5_witness :
    checkpoint ⟨[(2, 9)], [], none, [], 4, [], [2]⟩ =
        Except.ok (⟨[(2, 9)], [(2, 9)], some 3, [(2, 9)], 4, [], []⟩,
          [(2, 9)], [(2, 9)], some (root_hash [(2, 9)])) ∧
      (⟨[(2, 9)], [(2, 9)], some 3, [(2, 9)], 4, [], []⟩ :
          InMemoryStateCalculator).updated_after_latest = [] ∧
      (⟨[(2, 9)], [(2, 9)], some 3, [(2, 9)], 4, [], []⟩ :
          InMemoryStateCalculator).checkpoint_version = some 3 := by
  have h : checkpoint ⟨[(2, 9)], [], none, [], 4, [], [2]⟩ =
      Except.ok (⟨[(2, 9)], [(2, 9)], some 3, [(2, 9)], 4, [], []⟩,
        [(2, 9)], [(2, 9)], some (root_hash [(2, 9)])) := by rfl
  have hc := c5_checkpoint_reset_invariant _ _ _ _ _ h (by decide)
  exact ⟨h, hc.1, hc.2.2.1⟩

/-- C10: a checkpoint reached through `add_transaction` (reconfiguration
flag, genesis transaction, or state-checkpoint marker) runs with the version
counter already incremented, so `checked_sub` never yields `none`: the
resulting `checkpoint_version` is `some` of the checkpointing transaction's
own version (the pre-increment `next_version`). -/
theorem c10_checkpoint_version_some (c c' : InMemoryStateCalculator)
    (txn : Transaction) (txn_output : ParsedTransactionOutput) (su nh : Smap)
    (rh : Option HashValue)
    (h : add_transaction c txn txn_output = Except.ok (c', su, nh, rh))
    (hcp : txn_output.is_reconfig = true ∨ txn = Transaction.GenesisTransaction ∨
      txn = Transaction.StateCheckpoint) :
    c'.checkpoint_version = some c.next_version := by
  have hck : ∀ c2 : InMemoryStateCalculator, c2.next_version = c.next_version + 1 →
      checkpoint c2 = Except.ok (c', su, nh, rh) →
      c'.checkpoint_version = some c.next_version := by
    intro c2 hnv hh
    obtain ⟨u, bv, _, _, hc', _, _, _⟩ := checkpoint_ok_elim c2 c' su nh rh hh
    subst hc'
    simp only [checked_sub, hnv]
    rw [if_pos (by omega)]
    simp
  unfold add_transaction at h
  by_cases hrc : txn_output.is_reconfig
  · rw [if_pos hrc] at h
    exact hck _ rfl h
  · rw [if_neg hrc] at h
    rcases hcp with hcp | hcp | hcp
    · exact absurd hcp hrc
    · subst hcp
      exact hck _ rfl h
    · subst hcp
      exact hck _ rfl h

theorem c10_witness :
    ((⟨[], [], none, [], 0, [], []⟩ : InMemoryStateCalculator).next_version = 0) ∧
      ∃ c' su nh rh,
        add_transaction ⟨[], [], none, [], 0, [], []⟩ Transaction.StateCheckpoint
            ⟨[(6, 1)], false⟩ = Except.ok (c', su, nh, rh) ∧
          c'.checkpoint_version = some 0 := by
  refine ⟨rfl, ⟨[(6, 1)], [(6, 1)], some 0, [(6, 1)], 1, [], []⟩, [(6, 1)],
    [(6, 1)], some (root_hash [(6, 1)]), ?_, ?_⟩
  · rfl
  · exact c10_checkpoint_version_some ⟨[], [], none, [], 0, [], []⟩ _
      Transaction.StateCheckpoint ⟨[(6, 1)], false⟩ _ _ _ (by rfl)
      (Or.inr (Or.inr rfl))

/-- C6: a key recorded in `updated_after_latest` but absent from the flat
read cache makes the fold fail: `checkpoint` and `finish` both return the
missing-value error, and the chunk entry point (here reaching the `finish`
fold) returns that error, so no Result State or per-transaction sequences are
produced (the `Except` result carries either the full tuple or an error). -/
theorem c6_missing_cache_value_fails_chunk (c : InMemoryStateCalculator)
    (k : StateKey) (new_epoch : Bool) (hk : k ∈ c.updated_after_latest)
    (hc : mget c.state_cache k = none) :
    checkpoint c = Except.error errMissingValue ∧
      finish c = Except.error errMissingValue ∧
      calculate_for_transaction_chunk c [] new_epoch =
        Except.error errMissingValue := by
  have hg : gen_updates c.state_cache c.updated_after_latest =
      Except.error errMissingValue :=
    gen_updates_error_of_missing _ _ k hk hc
  have hck : checkpoint c = Except.error errMissingValue :=
    checkpoint_error_of_updates c _ hg
  have hf : finish c = Except.error errMissingValue :=
    finish_error_of_updates c _ hg
  refine ⟨hck, hf, ?_⟩
  rw [calculate_for_transaction_chunk]
  simp only [run_transactions]
  rw [hf]

theorem c6_witness :
    (6 : StateKey) ∈ [6] ∧ mget [(2, 1)] 6 = none ∧
      checkpoint ⟨[(2, 1)], [], none, [], 3, [], [6]⟩ =
        Except.error errMissingValue ∧
      finish ⟨[(2, 1)], [], none, [], 3, [], [6]⟩ =
        Except.error errMissingValue ∧
      calculate_for_transaction_chunk ⟨[(2, 1)], [], none, [], 3, [], [6]⟩ []
          true = Except.error errMissingValue := by
  refine ⟨List.mem_singleton.mpr rfl, rfl, ?_⟩
  exact c6_missing_cache_value_fails_chunk ⟨[(2, 1)], [], none, [], 3, [], [6]⟩
    6 true (List.mem_singleton.mpr rfl) rfl

/-- C9: the fan-out that assembles the updated-key/value mapping is a pure
function of the key set — any two enumeration orders of the keys (any
permutation, hence any work partitioning or gathering order) produce the
identical mapping — and it fails exactly when some underlying cache lookup
fails.  Chunk computation as a whole is a pure function of its arguments in
this embedding, so run-to-run determinism follows. -/
theorem c9_fanout_order_irrelevant (cache : Smap) (ks ks' : List StateKey)
    (h : ks.Perm ks') :
    gen_updates cache ks = gen_updates cache ks' ∧
      ((∃ e, gen_updates cache ks = Except.error e) ↔
        ∃ k ∈ ks, mget cache k = none) := by
  have herr : ∀ (l l' : List StateKey), l.Perm l' →
      (∃ k ∈ l, mget cache k = none) → (∃ k ∈ l', mget cache k = none) := by
    intro l l' hp ⟨k, hk, hc⟩
    exact ⟨k, hp.mem_iff.mp hk, hc⟩
  by_cases hm : ∃ k ∈ ks, mget cache k = none
  · obtain ⟨k, hk, hc⟩ := hm
    constructor
    · rw [gen_updates_error_of_missing cache ks k hk hc,
          gen_updates_error_of_missing cache ks' k (h.mem_iff.mp hk) hc]
    · exact ⟨fun _ => ⟨k, hk, hc⟩,
        fun _ => ⟨errMissingValue, gen_updates_error_of_missing cache ks k hk hc⟩⟩
  · have htot : ∀ k ∈ ks, ∃ v, mget cache k = some v := by
      intro k hk
      cases hcc : mget cache k with
      | none => exact absurd ⟨k, hk, hcc⟩ hm
      | some v => exact ⟨v, rfl⟩
    obtain ⟨m, hm1⟩ := gen_updates_ok_of_total cache ks htot
    obtain ⟨m', hm2⟩ := gen_updates_ok_of_total cache ks'
      (fun k hk => htot k (h.mem_iff.mpr hk))
    constructor
    · rw [hm1, hm2]
      congr 1
      refine mext _ _ (gen_updates_sorted _ _ _ hm1) (gen_updates_sorted _ _ _ hm2) ?_
      intro k
      rw [gen_updates_get _ _ _ hm1 k, gen_updates_get _ _ _ hm2 k]
      by_cases hk : k ∈ ks
      · rw [if_pos hk, if_pos (h.mem_iff.mp hk)]
      · rw [if_neg hk, if_neg (fun hkk => hk (h.mem_iff.mpr hkk))]
    · constructor
      · intro ⟨e, he⟩
        rw [hm1] at he
        exact absurd he (by simp)
      · intro hx
        exact absurd hx hm

theorem c9_witness :
    gen_updates [(1, 5), (2, 7)] [2, 1] = gen_updates [(1, 5), (2, 7)] [1, 2] ∧
      ((∃ e, gen_updates [(1, 5), (2, 7)] [2, 1] = Except.error e) ↔
        ∃ k ∈ [2, 1], mget [(1, 5), (2, 7)] k = none) :=
  c9_fanout_order_irrelevant [(1, 5), (2, 7)] [2, 1] [1, 2]
    (List.Perm.swap 1 2 [])

/-- C2: the delta emitted by a successful checkpoint holds a key exactly when
that key is in `updated_after_latest` or in
`updated_between_checkpoint_and_latest`; keys of `updated_after_latest` carry
their flat-read-cache value and every remaining key carries the value looked
up in the tree snapshot — no stale values, no omissions. -/
theorem c2_checkpoint_delta_exact (c c' : InMemoryStateCalculator)
    (su nh : Smap) (rh : Option HashValue)
    (h : checkpoint c = Except.ok (c', su, nh, rh)) :
    (∀ k, (∃ v, mget su k = some v) ↔
        (k ∈ c.updated_after_latest ∨
          k ∈ c.updated_between_checkpoint_and_latest)) ∧
      (∀ k ∈ c.updated_after_latest, mget su k = mget c.state_cache k) ∧
      (∀ k, k ∈ c.updated_between_checkpoint_and_latest →
        ¬ k ∈ c.updated_after_latest → mget su k = mget c.latest (key_hash k)) := by
  obtain ⟨u, bv, hu, hs, _, hsu, _, _⟩ := checkpoint_ok_elim c c' su nh rh h
  subst hsu
  rw [updates_after_latest] at hu
  have hbvs : MSorted bv := straddling_values_sorted _ _ _ hs
  have hget : ∀ k, mget (batch_update u bv) k = oor (mget bv k) (mget u k) := by
    intro k
    rw [mget_batch_update, canon_sorted bv hbvs]
  have hmemf : ∀ k, (k ∈ c.updated_between_checkpoint_and_latest.filter
      (fun k => decide (¬ k ∈ c.updated_after_latest))) ↔
      (k ∈ c.updated_between_checkpoint_and_latest ∧
        ¬ k ∈ c.updated_after_latest) := by
    intro k
    rw [List.mem_filter]
    simp
  refine ⟨?_, ?_, ?_⟩
  · intro k
    rw [hget k, gen_updates_get _ _ _ hu k, straddling_values_get _ _ _ hs k]
    constructor
    · intro ⟨v, hv⟩
      by_cases h1 : k ∈ c.updated_after_latest
      · exact Or.inl h1
      · by_cases h2 : k ∈ c.updated_between_checkpoint_and_latest.filter
            (fun k => decide (¬ k ∈ c.updated_after_latest))
        · exact Or.inr ((hmemf k).mp h2).1
        · rw [if_neg h2, if_neg h1, oor_none] at hv
          exact absurd hv (by simp)
    · intro hk
      by_cases h1 : k ∈ c.updated_after_latest
      · obtain ⟨v, hv⟩ := gen_updates_mem_isSome _ _ _ hu k h1
        rw [if_pos h1, hv]
        cases hc2 : (if k ∈ c.updated_between_checkpoint_and_latest.filter
            (fun k => decide (¬ k ∈ c.updated_after_latest))
          then mget c.latest (key_hash k) else none) with
        | none => exact ⟨v, by rw [oor_none]⟩
        | some w =>
          by_cases hf : k ∈ c.updated_between_checkpoint_and_latest.filter
              (fun k => decide (¬ k ∈ c.updated_after_latest))
          · exact absurd ((hmemf k).mp hf).2 (by simp [h1])
          · rw [if_neg hf] at hc2
            exact absurd hc2 (by simp)
      · have h2 : k ∈ c.updated_between_checkpoint_and_latest := by
          rcases hk with hk | hk
          · exact absurd hk h1
          · exact hk
        have hf : k ∈ c.updated_between_checkpoint_and_latest.filter
            (fun k => decide (¬ k ∈ c.updated_after_latest)) :=
          (hmemf k).mpr ⟨h2, h1⟩
        have hsome := straddling_values_get _ _ _ hs k
        rw [if_pos hf] at hsome
        obtain ⟨v, hv⟩ : ∃ v, mget c.latest (key_hash k) = some v := by
          have hex : ∀ kk ∈ c.updated_between_checkpoint_and_latest.filter
              (fun k => decide (¬ k ∈ c.updated_after_latest)),
              ∃ v, mget c.latest (key_hash kk) = some v := by
            intro kk hkk
            cases hcc : mget c.latest (key_hash kk) with
            | some v => exact ⟨v, rfl⟩
            | none =>
              rw [straddling_values_error_of_missing c.latest _ kk hkk hcc] at hs
              exact absurd hs (by simp)
          exact hex k hf
        rw [if_pos hf, hv, oor_some]
        exact ⟨v, rfl⟩
  · intro k hk
    rw [hget k, gen_updates_get _ _ _ hu k, if_pos hk,
        straddling_values_get _ _ _ hs k]
    have hnf : ¬ k ∈ c.updated_between_checkpoint_and_latest.filter
        (fun k => decide (¬ k ∈ c.updated_after_latest)) := by
      intro hf
      exact absurd ((hmemf k).mp hf).2 (by simp [hk])
    rw [if_neg hnf, oor_none]
  · intro k h2 h1
    have hf : k ∈ c.updated_between_checkpoint_and_latest.filter
        (fun k => decide (¬ k ∈ c.updated_after_latest)) :=
      (hmemf k).mpr ⟨h2, h1⟩
    rw [hget k, straddling_values_get _ _ _ hs k, if_pos hf,
        gen_updates_get _ _ _ hu k, if_neg h1, oor_none_right]

theorem c2_witness :
    checkpoint ⟨[(2, 9)], [], none, [(5, 1)], 4, [5], [2]⟩ =
        Except.ok (⟨[(2, 9)], [(2, 9), (5, 1)], some 3, [(2, 9), (5, 1)], 4, [], []⟩,
          [(2, 9), (5, 1)], [(2, 9), (5, 1)],
          some (root_hash [(2, 9), (5, 1)])) ∧
      mget [(2, 9), (5, 1)] 2 = mget [(2, 9)] 2 ∧
      mget [(2, 9), (5, 1)] 5 = mget [(5, 1)] (key_hash 5) := by
  have h : checkpoint ⟨[(2, 9)], [], none, [(5, 1)], 4, [5], [2]⟩ =
      Except.ok (⟨[(2, 9)], [(2, 9), (5, 1)], some 3, [(2, 9), (5, 1)], 4, [], []⟩,
        [(2, 9), (5, 1)], [(2, 9), (5, 1)],
        some (root_hash [(2, 9), (5, 1)])) := by rfl
  have hc := c2_checkpoint_delta_exact _ _ _ _ _ h
  exact ⟨h, hc.2.1 2 (List.mem_singleton.mpr rfl),
    hc.2.2 5 (List.mem_singleton.mpr rfl) (by decide)⟩

/-- C3: for a straddling key (modified between checkpoint and latest but not
after latest), the value placed in the emitted delta equals the value read
out of the new post-batch-update snapshot (the updated `latest` of the
post-checkpoint state) — not the flat read cache, which may hold a stale
value — and when the snapshot lookup does not find the key resident in the
scratch pad the checkpoint fails with the pending-state-missing error. -/
theorem c3_straddling_key_values (c : InMemoryStateCalculator) (k : StateKey)
    (h2 : k ∈ c.updated_between_checkpoint_and_latest)
    (h1 : ¬ k ∈ c.updated_after_latest) :
    (∀ c' su nh rh, checkpoint c = Except.ok (c', su, nh, rh) →
      mget su k = mget c'.latest (key_hash k) ∧
      (∃ v, smt_get c'.latest (key_hash k) =
        StateStoreStatus.ExistsInScratchPad v ∧ mget su k = some v)) ∧
    (mget c.latest (key_hash k) = none →
      (∀ j ∈ c.updated_after_latest, ∃ v, mget c.state_cache j = some v) →
      checkpoint c = Except.error errPendingMissing) := by
  have hmemf : (k ∈ c.updated_between_checkpoint_and_latest.filter
      (fun j => decide (¬ j ∈ c.updated_after_latest))) :=
    List.mem_filter.mpr ⟨h2, by simp [h1]⟩
  constructor
  · intro c' su nh rh h
    obtain ⟨u, bv, hu, hs, hc', hsu, _, _⟩ := checkpoint_ok_elim c c' su nh rh h
    subst hsu
    subst hc'
    rw [updates_after_latest] at hu
    have hbvs : MSorted bv := straddling_values_sorted _ _ _ hs
    have hus : MSorted u := gen_updates_sorted _ _ _ hu
    have hunone : mget u k = none := by
      rw [gen_updates_get _ _ _ hu k, if_neg h1]
    have hlat : ∃ v, mget c.latest (key_hash k) = some v := by
      cases hcc : mget c.latest (key_hash k) with
      | some v => exact ⟨v, rfl⟩
      | none =>
        rw [straddling_values_error_of_missing c.latest _ k hmemf hcc] at hs
        exact absurd hs (by simp)
    obtain ⟨v, hv⟩ := hlat
    have hsuk : mget (batch_update u bv) k = some v := by
      rw [mget_batch_update, canon_sorted bv hbvs,
          straddling_values_get _ _ _ hs k, if_pos hmemf, hv, oor_some]
    have hnewk : mget (batch_update c.latest (hash_keyed u)) (key_hash k) = some v := by
      rw [hash_keyed_eq, mget_batch_update, canon_sorted u hus,
          show key_hash k = k from rfl, hunone, oor_none]
      exact hv
    refine ⟨by rw [hsuk, hnewk], v, ?_, hsuk⟩
    rw [smt_get, hnewk]
  · intro hmiss htot
    obtain ⟨u, hu⟩ := gen_updates_ok_of_total c.state_cache
      c.updated_after_latest htot
    have hu' : updates_after_latest c = Except.ok u := hu
    rw [checkpoint, hu']
    simp only []
    rw [straddling_values_error_of_missing c.latest _ k hmemf hmiss]

theorem c3_witness :
    (mget [(2, 9), (5, 99)] 5 = some 99 ∧
      checkpoint ⟨[(2, 9), (5, 99)], [], none, [(5, 1), (7, 3)], 4, [5], [2]⟩ =
        Except.ok
          (⟨[(2, 9), (5, 99)], [(2, 9), (5, 1), (7, 3)], some 3,
            [(2, 9), (5, 1), (7, 3)], 4, [], []⟩,
           [(2, 9), (5, 1)], [(2, 9), (5, 1), (7, 3)],
           some (root_hash [(2, 9), (5, 1), (7, 3)])) ∧
      mget [(2, 9), (5, 1)] 5 = mget [(2, 9), (5, 1), (7, 3)] (key_hash 5)) ∧
    checkpoint ⟨[(2, 9)], [], none, [], 4, [5], [2]⟩ =
      Except.error errPendingMissing := by
  have h : checkpoint ⟨[(2, 9), (5, 99)], [], none, [(5, 1), (7, 3)], 4, [5], [2]⟩ =
      Except.ok
        (⟨[(2, 9), (5, 99)], [(2, 9), (5, 1), (7, 3)], some 3,
          [(2, 9), (5, 1), (7, 3)], 4, [], []⟩,
         [(2, 9), (5, 1)], [(2, 9), (5, 1), (7, 3)],
         some (root_hash [(2, 9), (5, 1), (7, 3)])) := by rfl
  refine ⟨⟨rfl, h, ?_⟩, ?_⟩
  · exact ((c3_straddling_key_values
      ⟨[(2, 9), (5, 99)], [], none, [(5, 1), (7, 3)], 4, [5], [2]⟩ 5
      (List.mem_singleton.mpr rfl) (by decide)).1 _ _ _ _ h).1
  · refine (c3_straddling_key_values ⟨[(2, 9)], [], none, [], 4, [5], [2]⟩ 5
      (List.mem_singleton.mpr rfl) (by decide)).2 rfl ?_
    intro j hj
    rw [List.mem_singleton] at hj
    subst hj
    exact ⟨9, rfl⟩

/-- C7: the chunk entry point returns an EpochState exactly when the caller
passes `new_epoch = true`, in which case it is parsed once from the final
accumulated state cache (however many reconfiguration transactions ran); and
a reconfiguration-flagged transaction forces a checkpoint (emits a root hash
and resets `updated_after_latest`) independently of `new_epoch`. -/
theorem c7_epoch_state_iff_new_epoch (c : InMemoryStateCalculator)
    (to_keep : List (Transaction × ParsedTransactionOutput)) (new_epoch : Bool)
    (sus nhs : List Smap) (rhs : List (Option HashValue)) (rs : InMemoryState)
    (es : Option EpochState)
    (h : calculate_for_transaction_chunk c to_keep new_epoch =
      Except.ok (sus, nhs, rhs, rs, es)) :
    es.isSome = new_epoch ∧
      (new_epoch = true → ∃ c2 x y z e,
        run_transactions c to_keep = Except.ok (c2, x, y, z) ∧
        parse_validator_set c2.state_cache = Except.ok e ∧ es = some e) ∧
      (∀ c0 : InMemoryStateCalculator, ∀ txn txn_output c0' su nh rh,
        txn_output.is_reconfig = true →
        add_transaction c0 txn txn_output = Except.ok (c0', su, nh, rh) →
        rh.isSome = true ∧ c0'.updated_after_latest = []) := by
  have hiii : ∀ c0 : InMemoryStateCalculator, ∀ txn txn_output c0' su nh rh,
      txn_output.is_reconfig = true →
      add_transaction c0 txn txn_output = Except.ok (c0', su, nh, rh) →
      rh.isSome = true ∧ c0'.updated_after_latest = [] := by
    intro c0 txn txn_output c0' su nh rh hrc hadd
    unfold add_transaction at hadd
    rw [if_pos hrc] at hadd
    obtain ⟨u, bv, _, _, hc', _, _, hrh⟩ :=
      checkpoint_ok_elim _ c0' su nh rh hadd
    subst hc'
    subst hrh
    exact ⟨rfl, rfl⟩
  rw [calculate_for_transaction_chunk] at h
  cases hr : run_transactions c to_keep with
  | error e => rw [hr] at h; exact absurd h (by simp)
  | ok t =>
    obtain ⟨c2, x, y, z⟩ := t
    rw [hr] at h
    dsimp only [] at h
    cases hf : finish c2 with
    | error e => rw [hf] at h; exact absurd h (by simp)
    | ok t2 =>
      obtain ⟨rs0, acc⟩ := t2
      rw [hf] at h
      dsimp only [] at h
      cases hne : new_epoch with
      | false =>
        rw [hne] at h
        rw [if_neg (by decide : ¬ (false = true))] at h
        simp only [Except.ok.injEq, Prod.mk.injEq] at h
        obtain ⟨_, _, _, _, hes⟩ := h
        subst hes
        exact ⟨rfl, by simp, hiii⟩
      | true =>
        rw [hne] at h
        rw [if_pos (rfl : true = true)] at h
        cases hp : parse_validator_set acc with
        | error e => rw [hp] at h; exact absurd h (by simp)
        | ok e =>
          rw [hp] at h
          simp only [Except.ok.injEq, Prod.mk.injEq] at h
          obtain ⟨_, _, _, hrs, hes⟩ := h
          subst hes
          refine ⟨rfl, fun _ => ?_, hiii⟩
          obtain ⟨u, _, _, hacc⟩ := finish_ok_elim c2 rs0 acc hf
          exact ⟨c2, x, y, z, e, rfl, hacc ▸ hp, rfl⟩

theorem c7_witness :
    (Option.some (⟨4, 11⟩ : EpochState)).isSome = true ∧
      (∃ c2 x y z e,
        run_transactions (new ⟨[], none, [], []⟩ [] 0)
            [(Transaction.UserTransaction, ⟨[(0, 11), (1, 4)], true⟩)] =
          Except.ok (c2, x, y, z) ∧
        parse_validator_set c2.state_cache = Except.ok e ∧
        Option.some (⟨4, 11⟩ : EpochState) = some e) ∧
      (Option.some (root_hash [(0, 11), (1, 4)])).isSome = true := by
  have h : calculate_for_transaction_chunk (new ⟨[], none, [], []⟩ [] 0)
      [(Transaction.UserTransaction, ⟨[(0, 11), (1, 4)], true⟩)] true =
      Except.ok ([[(0, 11), (1, 4)]], [[(0, 11), (1, 4)]],
        [some (root_hash [(0, 11), (1, 4)])],
        ⟨[(0, 11), (1, 4)], some 0, [(0, 11), (1, 4)], []⟩,
        some ⟨4, 11⟩) := by rfl
  have hc := c7_epoch_state_iff_new_epoch _ _ _ _ _ _ _ _ h
  refine ⟨hc.1, hc.2.1 rfl, ?_⟩
  exact (hc.2.2 (new ⟨[], none, [], []⟩ [] 0) Transaction.UserTransaction
    ⟨[(0, 11), (1, 4)], true⟩
    ⟨[(0, 11), (1, 4)], [(0, 11), (1, 4)], some 0, [(0, 11), (1, 4)], 1, [], []⟩
    [(0, 11), (1, 4)] [(0, 11), (1, 4)] (some (root_hash [(0, 11), (1, 4)]))
    rfl (by rfl)).1

theorem oor_isSome_right (a b : Option Nat) (h : ∃ v, b = some v) :
    ∃ v, oor a b = some v := by
  cases a with
  | some v => exact ⟨v, rfl⟩
  | none => exact h

theorem not_mem_keys_canon (ws : Smap) (k : Nat)
    (h : ¬ k ∈ ws.map Prod.fst) : mget (canon ws) k = none := by
  cases hc : mget (canon ws) k with
  | none => rfl
  | some v => exact absurd ((mem_keys_canon ws k).mpr ⟨v, hc⟩) h

/-- The concatenated raw write list of a chunk, in transaction order. -/
def chunk_writes (to_keep : List (Transaction × ParsedTransactionOutput)) :
    List (StateKey × StateValue) :=
  match to_keep with
  | [] => []
  | t :: rest => t.2.write_set ++ chunk_writes rest

/-- Loop invariant tying a calculator state to the construction-time inputs:
`cache0` the initial flat cache, `cur0` the base latest snapshot, and `ws`
the raw list of all writes applied since construction.  It says the flat
cache is `cache0` overlaid with the writes, every key recorded after latest
was indeed written, and folding the written keys still pending into `latest`
recovers the one-shot batch update of `cur0` with all writes. -/
def CalcInv (c : InMemoryStateCalculator) (cache0 cur0 : Smap)
    (ws : List (StateKey × StateValue)) : Prop :=
  c.state_cache = batch_update cache0 ws ∧
  (∀ k ∈ c.updated_after_latest, ∃ v, mget (canon ws) k = some v) ∧
  (∀ k, (if k ∈ c.updated_after_latest
         then oor (mget (canon ws) k) (mget c.latest k)
         else mget c.latest k) = oor (mget (canon ws) k) (mget cur0 k)) ∧
  MSorted c.latest

theorem calcInv_init (base : InMemoryState) (cache : Smap) (v : Version)
    (hs : MSorted base.current) :
    CalcInv (new base cache v) cache base.current [] := by
  refine ⟨rfl, ?_, ?_, hs⟩
  · intro k hk
    exact absurd hk (List.not_mem_nil k)
  · intro k
    have h1 : ¬ k ∈ (new base cache v).updated_after_latest :=
      List.not_mem_nil k
    rw [if_neg h1]
    simp [canon, batch_update_nil, mget, oor_none, new]

theorem calcInv_write (c : InMemoryStateCalculator) (cache0 cur0 : Smap)
    (ws xs : List (StateKey × StateValue)) (h : CalcInv c cache0 cur0 ws) :
    CalcInv
      ⟨batch_update c.state_cache xs, c.checkpoint, c.checkpoint_version,
       c.latest, c.next_version + 1, c.updated_between_checkpoint_and_latest,
       c.updated_after_latest ++ xs.map Prod.fst⟩
      cache0 cur0 (ws ++ xs) := by
  obtain ⟨h1, h2, h3, h4⟩ := h
  have hcanon : ∀ k, mget (canon (ws ++ xs)) k =
      oor (mget (canon xs) k) (mget (canon ws) k) := by
    intro k
    rw [canon, batch_update_append, mget_batch_update_raw]
    rfl
  refine ⟨?_, ?_, ?_, h4⟩
  · rw [h1, batch_update_append]
  · intro k hk
    rw [List.mem_append] at hk
    rw [hcanon k]
    rcases hk with hk | hk
    · exact oor_isSome_right _ _ (h2 k hk)
    · obtain ⟨v, hv⟩ := (mem_keys_canon xs k).mp hk
      exact ⟨v, by rw [hv, oor_some]⟩
  · intro k
    have hmem : (k ∈ c.updated_after_latest ++ xs.map Prod.fst) ↔
        (k ∈ c.updated_after_latest ∨ k ∈ xs.map Prod.fst) := List.mem_append
    by_cases hx : k ∈ xs.map Prod.fst
    · obtain ⟨v, hv⟩ := (mem_keys_canon xs k).mp hx
      have hm : k ∈ c.updated_after_latest ++ xs.map Prod.fst :=
        hmem.mpr (Or.inr hx)
      rw [if_pos hm, hcanon k, hv, oor_some, oor_some, oor_some]
    · have hxn : mget (canon xs) k = none := not_mem_keys_canon xs k hx
      have hck : mget (canon (ws ++ xs)) k = mget (canon ws) k := by
        rw [hcanon k, hxn, oor_none]
      by_cases ha : k ∈ c.updated_after_latest
      · have hm : k ∈ c.updated_after_latest ++ xs.map Prod.fst :=
          hmem.mpr (Or.inl ha)
        rw [if_pos hm, hck]
        have := h3 k
        rw [if_pos ha] at this
        exact this
      · have hm : ¬ k ∈ c.updated_after_latest ++ xs.map Prod.fst := by
          intro hmm
          rcases hmem.mp hmm with hmm | hmm
          · exact ha hmm
          · exact hx hmm
        rw [if_neg hm, hck]
        have := h3 k
        rw [if_neg ha] at this
        exact this

theorem calcInv_checkpoint (c c' : InMemoryStateCalculator) (su nh : Smap)
    (rh : Option HashValue) (cache0 cur0 : Smap)
    (ws : List (StateKey × StateValue)) (h : CalcInv c cache0 cur0 ws)
    (hck : checkpoint c = Except.ok (c', su, nh, rh)) :
    CalcInv c' cache0 cur0 ws := by
  obtain ⟨h1, h2, h3, h4⟩ := h
  obtain ⟨u, bv, hu, hs, hc', _, _, _⟩ := checkpoint_ok_elim c c' su nh rh hck
  subst hc'
  rw [updates_after_latest] at hu
  have hus : MSorted u := gen_updates_sorted _ _ _ hu
  refine ⟨h1, ?_, ?_, msorted_batch_update _ _ h4⟩
  · intro k hk
    exact absurd hk (List.not_mem_nil k)
  · intro k
    have hnil : ¬ (k ∈ ([] : List StateKey)) := List.not_mem_nil k
    rw [if_neg hnil, hash_keyed_eq, mget_batch_update, canon_sorted u hus,
        gen_updates_get _ _ _ hu k]
    by_cases ha : k ∈ c.updated_after_latest
    · rw [if_pos ha]
      obtain ⟨v, hv⟩ := h2 k ha
      have hcache : mget c.state_cache k = some v := by
        rw [h1, mget_batch_update_raw]
        rw [show batch_update [] ws = canon ws from rfl, hv, oor_some]
      rw [hcache, oor_some, hv, oor_some]
    · rw [if_neg ha, oor_none]
      have := h3 k
      rw [if_neg ha] at this
      exact this

theorem calcInv_add (c c' : InMemoryStateCalculator) (su nh : Smap)
    (rh : Option HashValue) (txn : Transaction)
    (txn_output : ParsedTransactionOutput) (cache0 cur0 : Smap)
    (ws : List (StateKey × StateValue)) (h : CalcInv c cache0 cur0 ws)
    (ha : add_transaction c txn txn_output = Except.ok (c', su, nh, rh)) :
    CalcInv c' cache0 cur0 (ws ++ txn_output.write_set) := by
  have h2 := calcInv_write c cache0 cur0 ws txn_output.write_set h
  unfold add_transaction at ha
  by_cases hrc : txn_output.is_reconfig
  · rw [if_pos hrc] at ha
    exact calcInv_checkpoint _ _ _ _ _ _ _ _ h2 ha
  · rw [if_neg hrc] at ha
    cases txn with
    | UserTransaction =>
      simp only [Except.ok.injEq, Prod.mk.injEq] at ha
      obtain ⟨hc', _, _, _⟩ := ha
      rw [← hc']
      exact h2
    | BlockMetadata =>
      simp only [Except.ok.injEq, Prod.mk.injEq] at ha
      obtain ⟨hc', _, _, _⟩ := ha
      rw [← hc']
      exact h2
    | GenesisTransaction =>
      exact calcInv_checkpoint _ _ _ _ _ _ _ _ h2 ha
    | StateCheckpoint =>
      exact calcInv_checkpoint _ _ _ _ _ _ _ _ h2 ha

theorem calcInv_run (to_keep : List (Transaction × ParsedTransactionOutput))
    (c c' : InMemoryStateCalculator) (sus nhs : List Smap)
    (rhs : List (Option HashValue)) (cache0 cur0 : Smap)
    (ws : List (StateKey × StateValue)) (h : CalcInv c cache0 cur0 ws)
    (hr : run_transactions c to_keep = Except.ok (c', sus, nhs, rhs)) :
    CalcInv c' cache0 cur0 (ws ++ chunk_writes to_keep) := by
  induction to_keep generalizing c c' sus nhs rhs ws with
  | nil =>
    simp only [run_transactions, Except.ok.injEq, Prod.mk.injEq] at hr
    obtain ⟨hc', _, _, _⟩ := hr
    rw [← hc', chunk_writes, List.append_nil]
    exact h
  | cons t rest ih =>
    obtain ⟨txn, txn_output⟩ := t
    simp only [run_transactions] at hr
    cases hadd : add_transaction c txn txn_output with
    | error e => rw [hadd] at hr; exact absurd hr (by simp)
    | ok q =>
      obtain ⟨c2, su, nh, rh⟩ := q
      rw [hadd] at hr
      dsimp only [] at hr
      cases hrun : run_transactions c2 rest with
      | error e => rw [hrun] at hr; exact absurd hr (by simp)
      | ok q2 =>
        obtain ⟨c3, sus2, nhs2, rhs2⟩ := q2
        rw [hrun] at hr
        simp only [Except.ok.injEq, Prod.mk.injEq] at hr
        obtain ⟨hc', _, _, _⟩ := hr
        have hinv2 := calcInv_add c c2 su nh rh txn txn_output cache0 cur0 ws
          h hadd
        have hinv3 := ih c2 c3 sus2 nhs2 rhs2 (ws ++ txn_output.write_set)
          hinv2 hrun
        rw [chunk_writes, ← List.append_assoc, ← hc']
        exact hinv3

theorem finish_current_char (c : InMemoryStateCalculator) (cache0 cur0 : Smap)
    (ws : List (StateKey × StateValue)) (rs : InMemoryState) (acc : Smap)
    (h : CalcInv c cache0 cur0 ws) (hf : finish c = Except.ok (rs, acc)) :
    MSorted rs.current ∧
      ∀ k, mget rs.current k = oor (mget (canon ws) k) (mget cur0 k) := by
  obtain ⟨h1, h2, h3, h4⟩ := h
  obtain ⟨u, hu, hrs, _⟩ := finish_ok_elim c rs acc hf
  subst hrs
  have hus : MSorted u := gen_updates_sorted _ _ _ hu
  refine ⟨msorted_batch_update _ _ h4, ?_⟩
  intro k
  simp only []
  rw [hash_keyed_eq, mget_batch_update, canon_sorted u hus,
      gen_updates_get _ _ _ hu k]
  by_cases ha : k ∈ c.updated_after_latest
  · rw [if_pos ha]
    obtain ⟨v, hv⟩ := h2 k ha
    have hcache : mget c.state_cache k = some v := by
      rw [h1, mget_batch_update_raw]
      rw [show batch_update [] ws = canon ws from rfl, hv, oor_some]
    rw [hcache, oor_some, hv, oor_some]
  · rw [if_neg ha, oor_none]
    have := h3 k
    rw [if_neg ha] at this
    exact this

theorem chunk_ok_elim (c : InMemoryStateCalculator)
    (to_keep : List (Transaction × ParsedTransactionOutput)) (new_epoch : Bool)
    (sus nhs : List Smap) (rhs : List (Option HashValue)) (rs : InMemoryState)
    (es : Option EpochState)
    (h : calculate_for_transaction_chunk c to_keep new_epoch =
      Except.ok (sus, nhs, rhs, rs, es)) :
    ∃ c2 acc, run_transactions c to_keep = Except.ok (c2, sus, nhs, rhs) ∧
      finish c2 = Except.ok (rs, acc) := by
  rw [calculate_for_transaction_chunk] at h
  cases hr : run_transactions c to_keep with
  | error e => rw [hr] at h; exact absurd h (by simp)
  | ok t =>
    obtain ⟨c2, x, y, z⟩ := t
    rw [hr] at h
    dsimp only [] at h
    cases hf : finish c2 with
    | error e => rw [hf] at h; exact absurd h (by simp)
    | ok t2 =>
      obtain ⟨rs0, acc⟩ := t2
      rw [hf] at h
      dsimp only [] at h
      cases hne : new_epoch with
      | false =>
        rw [hne] at h
        rw [if_neg (by decide : ¬ (false = true))] at h
        simp only [Except.ok.injEq, Prod.mk.injEq] at h
        obtain ⟨hx, hy, hz, hrs, _⟩ := h
        subst hx; subst hy; subst hz; subst hrs
        exact ⟨c2, acc, rfl, hf⟩
      | true =>
        rw [hne] at h
        rw [if_pos (rfl : true = true)] at h
        cases hp : parse_validator_set acc with
        | error e => rw [hp] at h; exact absurd h (by simp)
        | ok e =>
          rw [hp] at h
          simp only [Except.ok.injEq, Prod.mk.injEq] at h
          obtain ⟨hx, hy, hz, hrs, _⟩ := h
          subst hx; subst hy; subst hz; subst hrs
          exact ⟨c2, acc, rfl, hf⟩

/-- C1: processing a chunk from a base Result State whose latest snapshot is
the one-shot batch update of the genesis (empty) tree with writes `w0`
produces a final latest snapshot identical — content and root hash — to one
single non-incremental batch update, from genesis, of the cumulative
write-set: incremental checkpointing never diverges from a from-scratch
recomputation. -/
theorem c1_full_recompute_equivalence (base : InMemoryState) (cache : Smap)
    (v : Version) (to_keep : List (Transaction × ParsedTransactionOutput))
    (new_epoch : Bool) (w0 : List (StateKey × StateValue))
    (hbase : base.current = batch_update [] w0) (sus nhs : List Smap)
    (rhs : List (Option HashValue)) (rs : InMemoryState) (es : Option EpochState)
    (h : calculate_for_transaction_chunk (new base cache v) to_keep new_epoch =
      Except.ok (sus, nhs, rhs, rs, es)) :
    rs.current = batch_update [] (w0 ++ chunk_writes to_keep) ∧
      root_hash rs.current =
        root_hash (batch_update [] (w0 ++ chunk_writes to_keep)) := by
  obtain ⟨c2, acc, hr, hf⟩ := chunk_ok_elim _ _ _ _ _ _ _ _ h
  have hs0 : MSorted base.current := by
    rw [hbase]
    exact msorted_batch_update _ _ List.Pairwise.nil
  have hinv0 := calcInv_init base cache v hs0
  have hinv := calcInv_run to_keep _ _ _ _ _ cache base.current [] hinv0 hr
  rw [List.nil_append] at hinv
  obtain ⟨hsor, hchar⟩ :=
    finish_current_char c2 cache base.current (chunk_writes to_keep) rs acc
      hinv hf
  have heq : rs.current = batch_update [] (w0 ++ chunk_writes to_keep) := by
    refine mext _ _ hsor (msorted_batch_update _ _ List.Pairwise.nil) ?_
    intro k
    rw [hchar k, hbase, batch_update_append,
        mget_batch_update_raw (batch_update [] w0) (chunk_writes to_keep) k]
    rfl
  exact ⟨heq, by rw [heq]⟩

theorem c1_witness :
    ((⟨[], none, [], []⟩ : InMemoryState).current = batch_update [] []) ∧
      ((⟨[], none, [(1, 5)], [1]⟩ : InMemoryState).current =
        batch_update [] ([] ++ chunk_writes
          [(Transaction.UserTransaction, ⟨[(1, 5)], false⟩)])) := by
  refine ⟨rfl, ?_⟩
  exact (c1_full_recompute_equivalence ⟨[], none, [], []⟩ [] 7
    [(Transaction.UserTransaction, ⟨[(1, 5)], false⟩)] false [] rfl
    [[]] [[]] [none] ⟨[], none, [(1, 5)], [1]⟩ none (by rfl)).1

/-- C8: the Result State produced by `finish` keeps the representation
invariant: its modified-since-checkpoint set is the inherited
`updated_between_checkpoint_and_latest` plus exactly the keys folded in at
finish, its latest snapshot agrees with its checkpoint snapshot outside that
set (given the same invariant on the input working state), its
checkpoint version is carried over unchanged — in particular still `none`
when no checkpoint has ever occurred — and any recorded checkpoint version
stays strictly below `next_version` (that is, `≤ next_version - 1`). -/
theorem c8_result_state_invariant (c : InMemoryStateCalculator)
    (rs : InMemoryState) (acc : Smap)
    (hinv : ∀ k : Nat, ¬ k ∈ c.updated_between_checkpoint_and_latest →
      ¬ k ∈ c.updated_after_latest →
      mget c.latest (key_hash k) = mget c.checkpoint (key_hash k))
    (hver : ∀ w, c.checkpoint_version = some w → w + 1 ≤ c.next_version)
    (hf : finish c = Except.ok (rs, acc)) :
    (∃ u, gen_updates c.state_cache c.updated_after_latest = Except.ok u ∧
      rs.updated_since_checkpoint =
        c.updated_between_checkpoint_and_latest ++ u.map Prod.fst) ∧
      (∀ k : Nat, ¬ k ∈ rs.updated_since_checkpoint →
        mget rs.current (key_hash k) = mget rs.checkpoint (key_hash k)) ∧
      rs.checkpoint_version = c.checkpoint_version ∧
      (∀ w, rs.checkpoint_version = some w → w + 1 ≤ c.next_version) ∧
      (rs.checkpoint_version = none ↔ c.checkpoint_version = none) := by
  obtain ⟨u, hu, hrs, _⟩ := finish_ok_elim c rs acc hf
  subst hrs
  have hus : MSorted u := gen_updates_sorted _ _ _ hu
  refine ⟨⟨u, hu, rfl⟩, ?_, rfl, hver, Iff.rfl⟩
  intro k hk
  simp only [] at hk ⊢
  rw [List.mem_append] at hk
  have hkb : ¬ k ∈ c.updated_between_checkpoint_and_latest :=
    fun hh => hk (Or.inl hh)
  have hku : ¬ k ∈ u.map Prod.fst := fun hh => hk (Or.inr hh)
  have hka : ¬ k ∈ c.updated_after_latest := by
    intro ha
    obtain ⟨v, hv⟩ := gen_updates_mem_isSome _ _ _ hu k ha
    have huk : mget u k = some v := by
      rw [gen_updates_get _ _ _ hu k, if_pos ha, hv]
    exact hku (List.mem_map.mpr ⟨(k, v), mget_mem u k v huk, rfl⟩)
  have hun : mget u k = none := by
    rw [gen_updates_get _ _ _ hu k, if_neg hka]
  rw [hash_keyed_eq, show key_hash k = k from rfl, mget_batch_update,
      canon_sorted u hus, hun, oor_none]
  exact hinv k hkb hka

theorem c8_witness :
    (∃ u, gen_updates [(2, 9)] [2] = Except.ok u ∧
      ([5, 2] : List StateKey) = [5] ++ u.map Prod.fst) ∧
      mget [(2, 9)] (key_hash 7) = mget [] (key_hash 7) := by
  have hf : finish ⟨[(2, 9)], [], some 1, [], 3, [5], [2]⟩ =
      Except.ok (⟨[], some 1, [(2, 9)], [5, 2]⟩, [(2, 9)]) := by rfl
  have hc := c8_result_state_invariant ⟨[(2, 9)], [], some 1, [], 3, [5], [2]⟩
    ⟨[], some 1, [(2, 9)], [5, 2]⟩ [(2, 9)] (fun k h1 h2 => rfl)
    (by intro w hw; have h1 := Option.some.inj hw; subst h1; decide) hf
  exact ⟨hc.1, hc.2.1 7 (by decide)⟩

end Aptos
